import Mathlib

/-!
# Verification of the MChain proof-of-work blockchain (`src/main.rs`)

A shallow embedding of the MChain program: the SHA-256 based hasher
(`calculate_hash`), the proof-of-work miner (`mine_block`), on-disk block
storage (`save_block_to_file` / `load_blocks_from_disk`), the chain validator
(`verify_chain`), and the `mine` subcommand of the controller (`mineCmd`).
Machine integers (`u64`, `u128`, `usize`) are modelled as `Nat`; the unbounded
mining loop is modelled with explicit fuel; the wall clock (timestamps,
durations) is an external input, passed as a parameter.
-/

namespace MChain

/-! ## SHA-256 (the `sha2` crate's `Sha256`), over `Nat` words -/

namespace SHA256

/-- Truncate to a 32-bit word. -/
def w32 (x : Nat) : Nat := x % 4294967296

/-- Right-rotation of a 32-bit word by `n` (0 < n < 32): for `x < 2^32`,
`(x >>> n) ||| (x <<< (32-n))` masked to 32 bits equals this sum, the two
summands occupying disjoint bit ranges. -/
def rotr (n x : Nat) : Nat := x / 2 ^ n + x % 2 ^ n * 2 ^ (32 - n)

/-- The choice function `Ch(e,f,g) = (e ∧ f) ⊕ (¬e ∧ g)`; `¬e` is one's
complement in 32 bits. -/
def ch (e f g : Nat) : Nat := (e &&& f) ^^^ ((4294967295 - e % 4294967296) &&& g)

/-- The majority function `Maj(a,b,c) = (a ∧ b) ⊕ (a ∧ c) ⊕ (b ∧ c)`. -/
def maj (a b c : Nat) : Nat := (a &&& b) ^^^ (a &&& c) ^^^ (b &&& c)

/-- The big sigma-0 function. -/
def bsig0 (x : Nat) : Nat := rotr 2 x ^^^ rotr 13 x ^^^ rotr 22 x

/-- The big sigma-1 function. -/
def bsig1 (x : Nat) : Nat := rotr 6 x ^^^ rotr 11 x ^^^ rotr 25 x

/-- The small sigma-0 function. -/
def ssig0 (x : Nat) : Nat := rotr 7 x ^^^ rotr 18 x ^^^ x / 2 ^ 3

/-- The small sigma-1 function. -/
def ssig1 (x : Nat) : Nat := rotr 17 x ^^^ rotr 19 x ^^^ x / 2 ^ 10

/-- The 64 SHA-256 round constants (FIPS 180-4 §4.2.2, in decimal). -/
def K : List Nat :=
  [1116352408, 1899447441, 3049323471, 3921009573, 961987163, 1508970993,
   2453635748, 2870763221, 3624381080, 310598401, 607225278, 1426881987,
   1925078388, 2162078206, 2614888103, 3248222580, 3835390401, 4022224774,
   264347078, 604807628, 770255983, 1249150122, 1555081692, 1996064986,
   2554220882, 2821834349, 2952996808, 3210313671, 3336571891, 3584528711,
   113926993, 338241895, 666307205, 773529912, 1294757372, 1396182291,
   1695183700, 1986661051, 2177026350, 2456956037, 2730485921, 2820302411,
   3259730800, 3345764771, 3516065817, 3600352804, 4094571909, 275423344,
   430227734, 506948616, 659060556, 883997877, 958139571, 1322822218,
   1537002063, 1747873779, 1955562222, 2024104815, 2227730452, 2361852424,
   2428436474, 2756734187, 3204031479, 3329325298]

/-- The eight working variables of the compression function. -/
structure St where
  a : Nat
  b : Nat
  c : Nat
  d : Nat
  e : Nat
  f : Nat
  g : Nat
  h : Nat
deriving DecidableEq

/-- The SHA-256 initial hash value (FIPS 180-4 §5.3.3, in decimal). -/
def initH : St :=
  ⟨1779033703, 3144134277, 1013904242, 2773480762,
   1359893119, 2600822924, 528734635, 1541459225⟩

/-- One compression round with round constant `ki` and schedule word `wi`. -/
def round (st : St) (ki wi : Nat) : St :=
  let t1 := w32 (st.h + bsig1 st.e + ch st.e st.f st.g + ki + wi)
  let t2 := w32 (bsig0 st.a + maj st.a st.b st.c)
  ⟨w32 (t1 + t2), st.a, st.b, st.c, w32 (st.d + t1), st.e, st.f, st.g⟩

/-- Parse a chunk of bytes into big-endian 32-bit words. -/
def toWords : List Nat → List Nat
  | b0 :: b1 :: b2 :: b3 :: rest => (((b0 * 256 + b1) * 256 + b2) * 256 + b3) :: toWords rest
  | _ => []

/-- Extend the 16 message words to 64 schedule words (`fuel` = 48 rounds of
extension). -/
def schedule : Nat → List Nat → List Nat
  | 0, w => w
  | fuel + 1, w =>
    let i := w.length
    let nw := w32 (ssig1 (w.getD (i - 2) 0) + w.getD (i - 7) 0 +
                   ssig0 (w.getD (i - 15) 0) + w.getD (i - 16) 0)
    schedule fuel (w ++ [nw])

/-- Process one 64-byte chunk: 64 rounds, then add the result into the
incoming hash value. -/
def compress (hs : St) (chunk : List Nat) : St :=
  let ws := schedule 48 (toWords chunk)
  let st := (K.zip ws).foldl (fun s kw => round s kw.1 kw.2) hs
  ⟨w32 (hs.a + st.a), w32 (hs.b + st.b), w32 (hs.c + st.c), w32 (hs.d + st.d),
   w32 (hs.e + st.e), w32 (hs.f + st.f), w32 (hs.g + st.g), w32 (hs.h + st.h)⟩

/-- SHA-256 padding: `0x80`, zeros to 56 mod 64, then the bit length as eight
big-endian bytes (the length is a `u64`, so taken mod `2^64`). -/
def pad (msg : List Nat) : List Nat :=
  let L := msg.length
  let zeros := (119 - L % 64) % 64
  let bitLen := 8 * L % 18446744073709551616
  msg ++ [128] ++ List.replicate zeros 0 ++
    (List.range 8).map (fun i => bitLen / 2 ^ (8 * (7 - i)) % 256)

/-- Split a byte list into 64-byte chunks (`fuel` bounds the recursion; the
caller passes the list length, which always suffices). -/
def chunksAux : Nat → List Nat → List (List Nat)
  | 0, _ => []
  | _ + 1, [] => []
  | fuel + 1, l => l.take 64 :: chunksAux fuel (l.drop 64)

/-- Split a byte list into 64-byte chunks. -/
def chunks (l : List Nat) : List (List Nat) := chunksAux l.length l

/-- SHA-256 digest of a byte list, as the eight final 32-bit hash words. -/
def sha256Words (msg : List Nat) : List Nat :=
  let fin := (chunks (pad msg)).foldl compress initH
  [fin.a, fin.b, fin.c, fin.d, fin.e, fin.f, fin.g, fin.h]

end SHA256

/-! ## Hex rendering (Rust's `format!("{:x}", digest)`: each digest byte as
two lowercase hex digits, i.e. each 32-bit word as eight hex digits) -/

/-- The lowercase hexadecimal digit for `n < 16`. -/
def hexDigitChar (n : Nat) : Char :=
  if n < 10 then Char.ofNat (48 + n) else Char.ofNat (87 + n)

/-- Render a 32-bit word as eight lowercase hex digits, big-endian. -/
def word8hex (w : Nat) : List Char :=
  (List.range 8).map (fun i => hexDigitChar (w / 16 ^ (7 - i) % 16))

/-- Render a list of 32-bit digest words as a lowercase hex string. -/
def wordsToHex (ws : List Nat) : String := ⟨ws.flatMap word8hex⟩

/-! ## UTF-8 (Rust `str::as_bytes`) -/

/-- The UTF-8 encoding of one scalar value. -/
def utf8Char (c : Char) : List Nat :=
  let n := c.toNat
  if n < 128 then [n]
  else if n < 2048 then [192 + n / 64, 128 + n % 64]
  else if n < 65536 then [224 + n / 4096, 128 + n / 64 % 64, 128 + n % 64]
  else [240 + n / 262144, 128 + n / 4096 % 64, 128 + n / 64 % 64, 128 + n % 64]

/-- The UTF-8 bytes of a string. -/
def utf8Bytes (s : String) : List Nat := s.data.flatMap utf8Char

/-! ## `calculate_hash` -/

/-- The hasher `calculate_hash`: concatenate the decimal renderings of `index`,
`timestamp`, `nonce` with `data` and `previous_hash` in the source's field
order, and return the lowercase hex SHA-256 digest of the UTF-8 bytes. -/
def calculate_hash (index timestamp : Nat) (data : String) (nonce : Nat)
    (previous_hash : String) : String :=
  wordsToHex (SHA256.sha256Words
    (utf8Bytes (toString index ++ toString timestamp ++ data ++ toString nonce ++ previous_hash)))

/-! ## The `Block` record -/

/-- The `Block` struct of `main.rs` (`u64`/`u128` fields as `Nat`). -/
structure Block where
  index : Nat
  timestamp : Nat
  data : String
  nonce : Nat
  previous_hash : String
  hash : String
  mining_duration_ms : Nat
deriving Repr, DecidableEq, Inhabited

/-- Indexing `chain[i]` (Rust indexing, used only under an in-bounds
condition). -/
def blkAt (chain : List Block) (i : Nat) : Block := chain.getD i default

/-! ## `mine_block` -/

/-- The target text start of the miner, Rust's zero string repeated
`difficulty` times. -/
def zeroRun (difficulty : Nat) : List Char := List.replicate difficulty '0'

/-- The mining loop's success test `hash.starts_with(..)`: the hex digest
text begins with `difficulty` zero characters. -/
def zeroPrefixed (difficulty : Nat) (hash : String) : Bool :=
  List.isPrefixOf (zeroRun difficulty) hash.data

/-- The mining loop body: try nonces from `nonce` upward; `fuel` bounds the
number of attempts (the Rust loop is unbounded, so the embedding quantifies
over `fuel`). `timestamp` and `duration` are the wall-clock inputs. -/
def mineAux (index timestamp : Nat) (data previous_hash : String)
    (difficulty duration : Nat) : Nat → Nat → Option Block
  | _, 0 => none
  | nonce, fuel + 1 =>
    let hash := calculate_hash index timestamp data nonce previous_hash
    if zeroPrefixed difficulty hash then
      some ⟨index, timestamp, data, nonce, previous_hash, hash, duration⟩
    else
      mineAux index timestamp data previous_hash difficulty duration (nonce + 1) fuel

/-- The miner `mine_block(index, data, previous_hash, difficulty)`: capture
`timestamp` once, start the nonce search at 0. Returns `none` only when
`fuel` attempts are exhausted. -/
def mine_block (index : Nat) (data previous_hash : String) (difficulty : Nat)
    (timestamp duration fuel : Nat) : Option Block :=
  mineAux index timestamp data previous_hash difficulty duration 0 fuel

/-! ## Block storage (`save_block_to_file` / `load_blocks_from_disk`)

A directory entry is modelled by its file name together with the outcome of
`serde_json::from_reader` on its contents (`none` when deserialization
fails); serde's JSON codec itself is the external collaborator. -/

/-- One file of the `mchain_data` directory. -/
structure DiskFile where
  name : String
  parsed : Option Block
deriving Repr, DecidableEq

/-- The file name `save_block_to_file` writes for a block:
`block_{index}.json` (the Rust code does not zero-pad the index). -/
def block_file_name (index : Nat) : String := "block_" ++ toString index ++ ".json"

/-- Split a character list at the dots (the list of parts, each dot-free). -/
def splitOnDot : List Char → List (List Char)
  | [] => [[]]
  | c :: rest =>
    if c = '.' then [] :: splitOnDot rest
    else
      match splitOnDot rest with
      | [] => [[c]]
      | p :: ps => (c :: p) :: ps

/-- The filter condition on directory entries, extension equal to `json`: the
extension is the part of the name after its last `.`, absent when the name
has no `.`. -/
def hasJsonExt (name : String) : Bool :=
  match splitOnDot name.data with
  | [] => false
  | [_] => false
  | p :: ps => List.getLastD (p :: ps) [] == ['j', 's', 'o', 'n']

/-- Lexicographic order on code points, the order `sort_by_key(|f| f.path())`
uses on the file names (all names share the directory component; for the
ASCII names at hand, byte order and code-point order agree). -/
def nameLe (x y : String) : Bool := charsLe x.data y.data
where
  charsLe : List Char → List Char → Bool
    | [], _ => true
    | _ :: _, [] => false
    | a :: as, b :: bs => if a.toNat < b.toNat then true
                          else if b.toNat < a.toNat then false
                          else charsLe as bs

/-- Insert a file into a name-sorted list. -/
def insertByName (f : DiskFile) : List DiskFile → List DiskFile
  | [] => [f]
  | g :: gs => if nameLe f.name g.name then f :: g :: gs else g :: insertByName f gs

/-- Sort files by name (ascending), as `files.sort_by_key(|f| f.path())`. -/
def sortByName : List DiskFile → List DiskFile
  | [] => []
  | f :: fs => insertByName f (sortByName fs)

/-- The loader `load_blocks_from_disk`: keep the `.json` files, sort them by
name, and push every block that deserializes; files that fail to parse are
skipped. -/
def load_blocks_from_disk (dir : List DiskFile) : List Block :=
  let files := dir.filter (fun f => hasJsonExt f.name)
  let sorted := sortByName files
  sorted.filterMap (fun f => f.parsed)

/-! ## `verify_chain` -/

/-- The validator's per-position test: position `i` has a broken link,
`blockchain[i].previous_hash != blockchain[i-1].hash`. -/
def badLinkAt (blockchain : List Block) (i : Nat) : Bool :=
  (blkAt blockchain i).previous_hash != (blkAt blockchain (i - 1)).hash

/-- The validator loop over a list of positions: the first position with a
broken link (where the Rust code prints the index and returns false), or
`none` when the scan reaches the end. -/
def firstBadLinkGo (blockchain : List Block) : List Nat → Option Nat
  | [] => none
  | i :: rest =>
    if badLinkAt blockchain i then some i else firstBadLinkGo blockchain rest

/-- The position `verify_chain` reports: the loop `for i in 1..len` runs over
the positions `1, …, len - 1`. -/
def firstBadLink (blockchain : List Block) : Option Nat :=
  firstBadLinkGo blockchain (List.range' 1 (blockchain.length - 1))

/-- The validator `verify_chain`: true when the scan from position 1 finds no
broken link. -/
def verify_chain (blockchain : List Block) : Bool :=
  (firstBadLink blockchain).isNone

/-! ## The controller's `Mine` arm

`ts` and `dur` give the wall-clock timestamp and measured mining duration of
the call that mines index `i`; `fuel` bounds each nonce search. -/

/-- The `for _ in 0..blocks` loop: mine `k` more blocks, appending each to the
chain; `next_index` is the controller's running index variable. -/
def extendLoop (difficulty : Nat) (data : String) (ts dur : Nat → Nat) (fuel : Nat) :
    Nat → Nat → List Block → Option (List Block)
  | 0, _, chain => some chain
  | k + 1, next_index, chain =>
    match chain.getLast? with
    | none => none
    | some lastB =>
      match mine_block next_index (data ++ " #" ++ toString next_index) lastB.hash
          difficulty (ts next_index) (dur next_index) fuel with
      | none => none
      | some b => extendLoop difficulty data ts dur fuel k (next_index + 1) (chain ++ [b])

/-- The `Commands::Mine` arm: load the chain (`chain0`), mine a genesis block
(`index = 0`, data `"Genesis Block"`, previous hash `"0"`) when it is empty,
then mine `blocks` further blocks from `next_index = last.index + 1`. -/
def mineCmd (blocks difficulty : Nat) (data : String) (ts dur : Nat → Nat) (fuel : Nat)
    (chain0 : List Block) : Option (List Block) :=
  let boot : Option (List Block) :=
    if chain0.isEmpty then
      match mine_block 0 "Genesis Block" "0" difficulty (ts 0) (dur 0) fuel with
      | none => none
      | some g => some [g]
    else
      some chain0
  match boot with
  | none => none
  | some chain =>
    match chain.getLast? with
    | none => none
    | some lastB => extendLoop difficulty data ts dur fuel blocks (lastB.index + 1) chain

/-! ## Derived predicates and concrete fixtures -/

/-- Membership test for the sixteen lowercase hexadecimal digit characters. -/
def isHexLowerChar (c : Char) : Bool := ("0123456789abcdef".data).contains c

/-- The invariant of a chain produced by the `Mine` arm from empty storage:
nonempty; the block at position `i` carries index `i`, a recomputable hash
meeting the base difficulty with a minimal nonce, the genesis sentinel data
and previous hash at position 0, and the suffixed payload and the
predecessor's hash at every later position. -/
def minedChainOk (difficulty : Nat) (data : String) (chain : List Block) : Prop :=
  chain ≠ [] ∧ ∀ i, i < chain.length →
    (blkAt chain i).index = i ∧
    (blkAt chain i).hash =
      calculate_hash i (blkAt chain i).timestamp (blkAt chain i).data
        (blkAt chain i).nonce (blkAt chain i).previous_hash ∧
    zeroPrefixed difficulty (blkAt chain i).hash = true ∧
    (∀ m, m < (blkAt chain i).nonce →
      zeroPrefixed difficulty
        (calculate_hash i (blkAt chain i).timestamp (blkAt chain i).data m
          (blkAt chain i).previous_hash) = false) ∧
    (i = 0 → (blkAt chain i).data = "Genesis Block" ∧ (blkAt chain i).previous_hash = "0") ∧
    (1 ≤ i → (blkAt chain i).data = data ++ " #" ++ toString i ∧
      (blkAt chain i).previous_hash = (blkAt chain (i - 1)).hash)

/-- The constant-zero wall clock used by the concrete runs. -/
def tsZero : Nat → Nat := fun _ => 0

/-- A concrete run of the `Mine` arm: 2 blocks after genesis, base
difficulty 0 (every nonce search succeeds at once, so fuel 1 suffices). -/
def demoRun : List Block := (mineCmd 2 0 "MChain data" tsZero tsZero 1 []).getD []

/-- A concrete run of the `Mine` arm: 3 blocks after genesis, base
difficulty 0. -/
def demoRun3 : List Block := (mineCmd 3 0 "MChain data" tsZero tsZero 1 []).getD []

/-- A concrete block mined at difficulty 0 (nonce 0 succeeds at once). -/
def demoMined : Block := (mine_block 7 "payload" "prev" 0 5 9 1).getD default

/-- A stored block of the broken-chain fixture: index `i`, hash the letter h
followed by the index, previous hash as given. -/
def breakBlk (i : Nat) (prev : String) : Block :=
  ⟨i, 0, "payload", 0, prev, "h" ++ toString i, 0⟩

/-- A stored 5-block chain whose first linkage break is at position 3: block
3's previous hash differs from block 2's hash, every other link is intact. -/
def brokenDir : List DiskFile :=
  [⟨block_file_name 0, some (breakBlk 0 "0")⟩,
   ⟨block_file_name 1, some (breakBlk 1 "h0")⟩,
   ⟨block_file_name 2, some (breakBlk 2 "h1")⟩,
   ⟨block_file_name 3, some (breakBlk 3 "BROKEN")⟩,
   ⟨block_file_name 4, some (breakBlk 4 "h3")⟩]

/-- A stored block for the filename-order fixture. -/
def storedBlk (i : Nat) : Block := ⟨i, 0, "x", 0, "p", "h", 0⟩

/-- A stored chain of 11 blocks (indices 0–10), as `save_block_to_file`
names them. -/
def elevenDir : List DiskFile :=
  (List.range 11).map (fun i => ⟨block_file_name i, some (storedBlk i)⟩)

/-- A concrete 4-block chain whose first broken link is at position 2. -/
def demoBadChain : List Block :=
  [⟨0, 0, "x", 0, "0", "a", 0⟩, ⟨1, 0, "x", 0, "a", "b", 0⟩,
   ⟨2, 0, "x", 0, "WRONG", "c", 0⟩, ⟨3, 0, "x", 0, "c", "d", 0⟩]

/-! ## Lemmas about the miner -/

/-- Difficulty 0 is satisfied by every digest. -/
theorem zeroPrefixed_zero (s : String) : zeroPrefixed 0 s = true := by
  obtain ⟨l⟩ := s
  cases l <;> rfl

/-- Characterization of a successful run of the mining loop started at nonce
`n0`: the block's fields are the call's arguments, its hash is recomputable
and meets the difficulty, and its nonce is the least success at or above
`n0`. -/
theorem mineAux_eq_some {index timestamp : Nat} {data previous_hash : String}
    {difficulty duration n0 fuel : Nat} {b : Block}
    (h : mineAux index timestamp data previous_hash difficulty duration n0 fuel = some b) :
    b.index = index ∧ b.timestamp = timestamp ∧ b.data = data ∧
    b.previous_hash = previous_hash ∧ b.mining_duration_ms = duration ∧
    b.hash = calculate_hash index timestamp data b.nonce previous_hash ∧
    zeroPrefixed difficulty b.hash = true ∧ n0 ≤ b.nonce ∧
    ∀ m, n0 ≤ m → m < b.nonce →
      zeroPrefixed difficulty (calculate_hash index timestamp data m previous_hash) = false := by
  induction fuel generalizing n0 with
  | zero => simp [mineAux] at h
  | succ fuel ih =>
    simp only [mineAux] at h
    by_cases hz :
        zeroPrefixed difficulty (calculate_hash index timestamp data n0 previous_hash) = true
    · rw [if_pos hz] at h
      injection h with h
      subst h
      exact ⟨rfl, rfl, rfl, rfl, rfl, rfl, hz, le_refl _,
        fun m h1 h2 => absurd h2 (Nat.not_lt.mpr h1)⟩
    · rw [if_neg hz] at h
      obtain ⟨p1, p2, p3, p4, p5, p6, p7, p8, p9⟩ := ih h
      have hz' :
          zeroPrefixed difficulty (calculate_hash index timestamp data n0 previous_hash) =
            false := by
        simpa using hz
      refine ⟨p1, p2, p3, p4, p5, p6, p7, by omega, fun m h1 h2 => ?_⟩
      rcases Nat.eq_or_lt_of_le h1 with h1 | h1
      · rw [h1] at hz'
        exact hz'
      · exact p9 m h1 h2

/-- Characterization of a successful `mine_block` call. -/
theorem mine_block_eq_some {index : Nat} {data previous_hash : String}
    {difficulty timestamp duration fuel : Nat} {b : Block}
    (h : mine_block index data previous_hash difficulty timestamp duration fuel = some b) :
    b.index = index ∧ b.timestamp = timestamp ∧ b.data = data ∧
    b.previous_hash = previous_hash ∧ b.mining_duration_ms = duration ∧
    b.hash = calculate_hash index timestamp data b.nonce previous_hash ∧
    zeroPrefixed difficulty b.hash = true ∧
    ∀ m, m < b.nonce →
      zeroPrefixed difficulty (calculate_hash index timestamp data m previous_hash) = false := by
  obtain ⟨p1, p2, p3, p4, p5, p6, p7, -, p9⟩ := mineAux_eq_some h
  exact ⟨p1, p2, p3, p4, p5, p6, p7, fun m hm => p9 m (Nat.zero_le m) hm⟩

/-- With fuel one past a successful nonce, the mining loop returns a block. -/
theorem mineAux_succeeds (index timestamp : Nat) (data previous_hash : String)
    (difficulty duration : Nat) :
    ∀ k n0 : Nat,
      zeroPrefixed difficulty (calculate_hash index timestamp data (n0 + k) previous_hash) =
        true →
      ∃ b, mineAux index timestamp data previous_hash difficulty duration n0 (k + 1) = some b := by
  intro k
  induction k with
  | zero =>
    intro n0 h
    rw [Nat.add_zero] at h
    exact ⟨_, by simp only [mineAux]; rw [if_pos h]⟩
  | succ k ih =>
    intro n0 h
    by_cases hz :
        zeroPrefixed difficulty (calculate_hash index timestamp data n0 previous_hash) = true
    · exact ⟨_, by simp only [mineAux]; rw [if_pos hz]⟩
    · obtain ⟨b, hb⟩ := ih (n0 + 1) (by rw [show n0 + 1 + k = n0 + (k + 1) by omega]; exact h)
      exact ⟨b, by simp only [mineAux]; rw [if_neg hz]; exact hb⟩

/-! ## C3, C7: the proof-of-work miner -/

/-- C3: every `mine_block` call that returns yields a block carrying the
timestamp captured at the start of the search, a hash recomputable as
`calculate_hash` over its fields whose text starts with at least `difficulty`
zero characters, and the least nonce achieving this (so difficulty 0 succeeds
with nonce 0). -/
theorem C3_mine_block_correct (index : Nat) (data previous_hash : String)
    (difficulty timestamp duration fuel : Nat) (b : Block)
    (h : mine_block index data previous_hash difficulty timestamp duration fuel = some b) :
    b.timestamp = timestamp ∧
    b.hash = calculate_hash index timestamp data b.nonce previous_hash ∧
    zeroPrefixed difficulty b.hash = true ∧
    (∀ m, m < b.nonce →
      zeroPrefixed difficulty (calculate_hash index timestamp data m previous_hash) = false) ∧
    (difficulty = 0 → b.nonce = 0) := by
  obtain ⟨-, p2, -, -, -, p6, p7, p9⟩ := mine_block_eq_some h
  refine ⟨p2, p6, p7, p9, fun hd => ?_⟩
  by_contra hnz
  have hlt := p9 0 (Nat.pos_of_ne_zero hnz)
  rw [hd, zeroPrefixed_zero] at hlt
  exact Bool.noConfusion hlt

set_option maxRecDepth 100000 in
/-- Witness for C3: a concrete mine at difficulty 0 and timestamp 5. -/
theorem C3_mine_block_correct_witness :
    mine_block 7 "payload" "prev" 0 5 9 1 = some demoMined ∧
    (demoMined.timestamp = 5 ∧
     demoMined.hash = calculate_hash 7 5 "payload" demoMined.nonce "prev" ∧
     zeroPrefixed 0 demoMined.hash = true ∧
     (∀ m, m < demoMined.nonce →
       zeroPrefixed 0 (calculate_hash 7 5 "payload" m "prev") = false) ∧
     (0 = 0 → demoMined.nonce = 0)) :=
  ⟨by decide, C3_mine_block_correct 7 "payload" "prev" 0 5 9 1 demoMined (by decide)⟩

/-- C7: whenever some nonce satisfies the difficulty predicate, the nonce
search terminates — some fuel makes `mine_block` return a block. -/
theorem C7_mining_terminates (index : Nat) (data previous_hash : String)
    (difficulty timestamp duration n : Nat)
    (hn : zeroPrefixed difficulty (calculate_hash index timestamp data n previous_hash) = true) :
    ∃ fuel b, mine_block index data previous_hash difficulty timestamp duration fuel = some b := by
  obtain ⟨b, hb⟩ :=
    mineAux_succeeds index timestamp data previous_hash difficulty duration n 0
      (by rw [Nat.zero_add]; exact hn)
  exact ⟨n + 1, b, hb⟩

/-- Witness for C7: difficulty 0 is satisfied at nonce 0, so mining at
difficulty 0 terminates. -/
theorem C7_mining_terminates_witness :
    zeroPrefixed 0 (calculate_hash 1 2 "payload" 0 "prev") = true ∧
    ∃ fuel b, mine_block 1 "payload" "prev" 0 2 3 fuel = some b :=
  ⟨by decide, C7_mining_terminates 1 "payload" "prev" 0 2 3 0 (by decide)⟩

/-! ## C8: the hasher -/

/-- Hex digits under 16 render as lowercase hexadecimal characters. -/
theorem hexDigitChar_hex (n : Nat) (h : n < 16) : isHexLowerChar (hexDigitChar n) = true := by
  interval_cases n <;> decide

/-- Every character of a rendered digest is a lowercase hexadecimal digit. -/
theorem wordsToHex_all_hex (ws : List Nat) : (wordsToHex ws).data.all isHexLowerChar = true := by
  rw [List.all_eq_true]
  intro c hc
  obtain ⟨w, -, hcw⟩ := List.mem_flatMap.mp hc
  have hcw' : ∃ j, j < 8 ∧ hexDigitChar (w / 16 ^ (7 - j) % 16) = c := by
    simpa [word8hex] using hcw
  obtain ⟨j, -, rfl⟩ := hcw'
  exact hexDigitChar_hex _ (Nat.mod_lt _ (by norm_num))

/-- A rendered word is eight characters. -/
theorem length_word8hex (w : Nat) : (word8hex w).length = 8 := by
  simp [word8hex]

/-- A rendered digest has eight characters per word. -/
theorem length_wordsToHex (ws : List Nat) : (wordsToHex ws).length = 8 * ws.length := by
  show (ws.flatMap word8hex).length = 8 * ws.length
  induction ws with
  | nil => rfl
  | cons w t ih =>
    rw [List.flatMap_cons, List.length_append, length_word8hex, ih, List.length_cons]
    omega

/-- A SHA-256 digest is eight 32-bit words. -/
theorem length_sha256Words (m : List Nat) : (SHA256.sha256Words m).length = 8 := rfl

/-- C8: the hasher is deterministic — equal inputs give the equal digest
string — and its output is a lowercase hexadecimal rendering of the 256-bit
digest: all 64 characters come from `0123456789abcdef`. -/
theorem C8_hasher_deterministic_hex (index timestamp : Nat) (data : String) (nonce : Nat)
    (previous_hash : String) :
    calculate_hash index timestamp data nonce previous_hash =
      calculate_hash index timestamp data nonce previous_hash ∧
    (calculate_hash index timestamp data nonce previous_hash).data.all isHexLowerChar = true ∧
    (calculate_hash index timestamp data nonce previous_hash).length = 64 := by
  refine ⟨rfl, wordsToHex_all_hex _, ?_⟩
  show (wordsToHex (SHA256.sha256Words _)).length = 64
  rw [length_wordsToHex, length_sha256Words]

/-! ## Lemmas about the store -/

/-- Insertion permutes. -/
theorem insertByName_perm (f : DiskFile) (l : List DiskFile) :
    (insertByName f l).Perm (f :: l) := by
  induction l with
  | nil => exact List.Perm.refl _
  | cons g gs ih =>
    simp only [insertByName]
    by_cases h : nameLe f.name g.name = true
    · rw [if_pos h]
    · rw [if_neg h]
      exact (ih.cons g).trans (List.Perm.swap f g gs)

/-- Sorting by name permutes the directory listing. -/
theorem sortByName_perm (l : List DiskFile) : (sortByName l).Perm l := by
  induction l with
  | nil => exact List.Perm.refl _
  | cons f fs ih => exact (insertByName_perm f (sortByName fs)).trans (ih.cons f)

/-- Filtering the parse results keeps one block per file that parses. -/
theorem length_filterMap_parsed (l : List DiskFile) :
    (l.filterMap (fun f => f.parsed)).length =
      (l.filter (fun f => f.parsed.isSome)).length := by
  induction l with
  | nil => rfl
  | cons f fs ih =>
    cases hp : f.parsed with
    | none => simp [List.filterMap_cons, List.filter_cons, hp, ih]
    | some b => simp [List.filterMap_cons, List.filter_cons, hp, ih]

/-! ## C2, C9: loading from storage -/

/-- C2 amended: loading never truncates — every block parsed from a `.json`
file of the stored directory appears in the loaded chain, whether or not the
linkage is intact. -/
theorem C2_load_keeps_parsed_blocks (dir : List DiskFile) (f : DiskFile) (b : Block)
    (hf : f ∈ dir) (hjson : hasJsonExt f.name = true) (hp : f.parsed = some b) :
    b ∈ load_blocks_from_disk dir := by
  have h1 : f ∈ dir.filter (fun g => hasJsonExt g.name) := List.mem_filter.mpr ⟨hf, hjson⟩
  have h2 : f ∈ sortByName (dir.filter fun g => hasJsonExt g.name) :=
    (sortByName_perm _).mem_iff.mpr h1
  exact List.mem_filterMap.mpr ⟨f, h2, hp⟩

/-- Witness for C2's amended claim: the block after the break survives
loading. -/
theorem C2_load_keeps_parsed_blocks_witness :
    (⟨block_file_name 3, some (breakBlk 3 "BROKEN")⟩ : DiskFile) ∈ brokenDir ∧
    hasJsonExt (block_file_name 3) = true ∧
    (some (breakBlk 3 "BROKEN") : Option Block) = some (breakBlk 3 "BROKEN") ∧
    breakBlk 3 "BROKEN" ∈ load_blocks_from_disk brokenDir :=
  ⟨by decide, by decide, rfl,
    C2_load_keeps_parsed_blocks brokenDir ⟨block_file_name 3, some (breakBlk 3 "BROKEN")⟩
      (breakBlk 3 "BROKEN") (by decide) (by decide) rfl⟩

/-- Counterexample to C2 as stated: a stored 5-block chain whose first
linkage break is at position 3 does not load as blocks 0..2 — all 5 blocks
load, the broken link still present at position 3. -/
theorem C2_truncation_counterexample :
    load_blocks_from_disk brokenDir ≠
      [breakBlk 0 "0", breakBlk 1 "h0", breakBlk 2 "h1"] ∧
    (load_blocks_from_disk brokenDir).length = 5 ∧
    badLinkAt (load_blocks_from_disk brokenDir) 3 = true ∧
    (∀ i, i < 3 → 1 ≤ i → badLinkAt (load_blocks_from_disk brokenDir) i = false) := by
  decide

/-- C9: loading skips exactly the files that fail to deserialize: the loaded
chain has one block per parsing `.json` file, and its members are exactly the
parse results of the stored files. -/
theorem C9_load_skips_corrupt (dir : List DiskFile) (b : Block) :
    (load_blocks_from_disk dir).length =
      ((dir.filter fun f => hasJsonExt f.name).filter fun f => f.parsed.isSome).length ∧
    (b ∈ load_blocks_from_disk dir ↔
      ∃ f, f ∈ dir ∧ hasJsonExt f.name = true ∧ f.parsed = some b) := by
  constructor
  · show ((sortByName _).filterMap _).length = _
    rw [length_filterMap_parsed]
    exact ((sortByName_perm _).filter _).length_eq
  · constructor
    · intro hb
      obtain ⟨f, hf, hp⟩ := List.mem_filterMap.mp hb
      have hf' : f ∈ dir.filter (fun g => hasJsonExt g.name) :=
        (sortByName_perm _).mem_iff.mp hf
      obtain ⟨hfd, hj⟩ := List.mem_filter.mp hf'
      exact ⟨f, hfd, hj, hp⟩
    · rintro ⟨f, hfd, hj, hp⟩
      exact List.mem_filterMap.mpr
        ⟨f, (sortByName_perm _).mem_iff.mpr (List.mem_filter.mpr ⟨hfd, hj⟩), hp⟩

/-! ## C6: filename order -/

/-- C6: the unpadded file names break index order on loading. A stored chain
with indices 0–10 loads with index 10 third, because the name of block 10
sorts lexicographically before the name of block 2; loading is not in
ascending index order. -/
theorem C6_load_order_bug :
    (load_blocks_from_disk elevenDir).map (fun b => b.index) =
      [0, 1, 10, 2, 3, 4, 5, 6, 7, 8, 9] ∧
    (load_blocks_from_disk elevenDir).map (fun b => b.index) ≠ List.range 11 := by
  decide

/-! ## C4: the validator -/

/-- A position passes the validator's test exactly when its stored previous
hash equals the predecessor's hash. -/
theorem badLinkAt_false_iff (c : List Block) (i : Nat) :
    badLinkAt c i = false ↔ (blkAt c i).previous_hash = (blkAt c (i - 1)).hash := by
  simp [badLinkAt]

/-- A position fails the validator's test exactly when the link is broken. -/
theorem badLinkAt_true_iff (c : List Block) (i : Nat) :
    badLinkAt c i = true ↔ (blkAt c i).previous_hash ≠ (blkAt c (i - 1)).hash := by
  simp [badLinkAt]

/-- The validator loop returns `none` exactly when every scanned position
passes. -/
theorem firstBadLinkGo_none_iff (c : List Block) (l : List Nat) :
    firstBadLinkGo c l = none ↔ ∀ i ∈ l, badLinkAt c i = false := by
  induction l with
  | nil => simp [firstBadLinkGo]
  | cons i rest ih =>
    simp only [firstBadLinkGo]
    by_cases h : badLinkAt c i = true
    · simp [h, List.forall_mem_cons]
    · have h' : badLinkAt c i = false := by simpa using h
      simp [h', ih, List.forall_mem_cons]

/-- A reported position is the first failing one of the scanned range. -/
theorem firstBadLinkGo_range'_some (c : List Block) :
    ∀ n s r : Nat, firstBadLinkGo c (List.range' s n) = some r →
      s ≤ r ∧ r < s + n ∧ badLinkAt c r = true ∧
      ∀ j, s ≤ j → j < r → badLinkAt c j = false := by
  intro n
  induction n with
  | zero =>
    intro s r h
    simp [firstBadLinkGo] at h
  | succ n ih =>
    intro s r h
    rw [List.range'_succ] at h
    simp only [firstBadLinkGo] at h
    by_cases hb : badLinkAt c s = true
    · rw [if_pos hb] at h
      injection h with h
      subst h
      exact ⟨le_refl _, by omega, hb, fun j h1 h2 => absurd h2 (Nat.not_lt.mpr h1)⟩
    · rw [if_neg hb] at h
      obtain ⟨h1, h2, h3, h4⟩ := ih (s + 1) r h
      refine ⟨by omega, by omega, h3, fun j hj1 hj2 => ?_⟩
      rcases Nat.eq_or_lt_of_le hj1 with hj | hj
      · rw [← hj]
        simpa using hb
      · exact h4 j hj hj2

/-- C4: the validator accepts exactly the chains whose every position from 1
on links to its predecessor's hash; a reported position is a genuine break
and all earlier positions link correctly (the scan stops there); chains of
length at most 1 are accepted. -/
theorem C4_verify_chain_correct (chain : List Block) :
    (verify_chain chain = true ↔
      ∀ i, 1 ≤ i → i < chain.length →
        (blkAt chain i).previous_hash = (blkAt chain (i - 1)).hash) ∧
    (∀ r, firstBadLink chain = some r →
      1 ≤ r ∧ r < chain.length ∧
      (blkAt chain r).previous_hash ≠ (blkAt chain (r - 1)).hash ∧
      ∀ j, 1 ≤ j → j < r →
        (blkAt chain j).previous_hash = (blkAt chain (j - 1)).hash) ∧
    (chain.length ≤ 1 → verify_chain chain = true) := by
  have hmem : ∀ i : Nat, i ∈ List.range' 1 (chain.length - 1) ↔ 1 ≤ i ∧ i < chain.length := by
    intro i
    rw [List.mem_range'_1]
    omega
  unfold verify_chain firstBadLink
  refine ⟨?_, ?_, ?_⟩
  · rw [Option.isNone_iff_eq_none, firstBadLinkGo_none_iff]
    constructor
    · intro h i h1 h2
      exact (badLinkAt_false_iff chain i).mp (h i ((hmem i).mpr ⟨h1, h2⟩))
    · intro h i hi
      obtain ⟨h1, h2⟩ := (hmem i).mp hi
      exact (badLinkAt_false_iff chain i).mpr (h i h1 h2)
  · intro r hr
    obtain ⟨h1, h2, h3, h4⟩ := firstBadLinkGo_range'_some chain (chain.length - 1) 1 r hr
    exact ⟨h1, by omega, (badLinkAt_true_iff chain r).mp h3,
      fun j hj1 hj2 => (badLinkAt_false_iff chain j).mp (h4 j hj1 hj2)⟩
  · intro hlen
    have h0 : chain.length - 1 = 0 := by omega
    rw [h0]
    rfl

/-- Witness for C4 at a concrete chain whose first break is at position 2. -/
theorem C4_verify_chain_correct_witness :
    firstBadLink demoBadChain = some 2 ∧
    (1 ≤ 2 ∧ 2 < demoBadChain.length ∧
      (blkAt demoBadChain 2).previous_hash ≠ (blkAt demoBadChain 1).hash ∧
      ∀ j, 1 ≤ j → j < 2 →
        (blkAt demoBadChain j).previous_hash = (blkAt demoBadChain (j - 1)).hash) :=
  ⟨by decide, (C4_verify_chain_correct demoBadChain).2.1 2 (by decide)⟩

/-! ## Lemmas about the controller -/

/-- Indexing below the first segment of an appended list. -/
theorem blkAt_append_lt (chain l : List Block) (i : Nat) (h : i < chain.length) :
    blkAt (chain ++ l) i = blkAt chain i := by
  unfold blkAt
  exact List.getD_append _ _ _ _ h

/-- Indexing the appended element. -/
theorem blkAt_concat_self (chain : List Block) (b : Block) :
    blkAt (chain ++ [b]) chain.length = b := by
  induction chain with
  | nil => rfl
  | cons a l ih => simp [blkAt, List.getD_cons_succ]

/-- The last block of a nonempty chain, as the controller reads it. -/
theorem getLast?_eq_blkAt (chain : List Block) (h : chain ≠ []) :
    chain.getLast? = some (blkAt chain (chain.length - 1)) := by
  induction chain with
  | nil => exact absurd rfl h
  | cons a l ih =>
    cases l with
    | nil => rfl
    | cons b rest =>
      rw [List.getLast?_cons_cons, ih (by simp)]
      simp [blkAt, List.getD_cons_succ]

/-- The extension loop preserves the mined-chain invariant (the running
index always equals the chain's length). -/
theorem extendLoop_ok (difficulty : Nat) (data : String) (ts dur : Nat → Nat) (fuel : Nat) :
    ∀ (k : Nat) (chain out : List Block),
      extendLoop difficulty data ts dur fuel k chain.length chain = some out →
      minedChainOk difficulty data chain → minedChainOk difficulty data out := by
  intro k
  induction k with
  | zero =>
    intro chain out h hok
    simp only [extendLoop] at h
    injection h with h
    rw [← h]
    exact hok
  | succ k ih =>
    intro chain out h hok
    obtain ⟨hne, hblk⟩ := hok
    have hpos : 0 < chain.length := List.length_pos.mpr hne
    simp only [extendLoop, getLast?_eq_blkAt chain hne] at h
    cases hm : mine_block chain.length (data ++ " #" ++ toString chain.length)
        (blkAt chain (chain.length - 1)).hash difficulty (ts chain.length)
        (dur chain.length) fuel with
    | none => simp [hm] at h
    | some b =>
      simp only [hm] at h
      obtain ⟨q1, q2, q3, q4, -, q6, q7, q9⟩ := mine_block_eq_some hm
      have hlen : (chain ++ [b]).length = chain.length + 1 := by simp
      rw [← hlen] at h
      refine ih (chain ++ [b]) out h ⟨by simp, ?_⟩
      intro i hilt
      rw [hlen] at hilt
      rcases Nat.lt_or_ge i chain.length with hi | hi
      · have e1 : blkAt (chain ++ [b]) i = blkAt chain i := blkAt_append_lt chain [b] i hi
        have e0 : blkAt (chain ++ [b]) (i - 1) = blkAt chain (i - 1) :=
          blkAt_append_lt chain [b] (i - 1) (by omega)
        rw [e1, e0]
        exact hblk i hi
      · have hieq : i = chain.length := by omega
        subst hieq
        have e1 : blkAt (chain ++ [b]) chain.length = b := blkAt_concat_self chain b
        have e0 : blkAt (chain ++ [b]) (chain.length - 1) = blkAt chain (chain.length - 1) :=
          blkAt_append_lt chain [b] (chain.length - 1) (by omega)
        rw [e1, e0]
        refine ⟨q1, ?_, q7, ?_, ?_, ?_⟩
        · rw [q2, q3, q4]
          exact q6
        · intro m hm'
          rw [q2, q3, q4]
          exact q9 m hm'
        · intro h0
          omega
        · intro hge
          exact ⟨q3, q4⟩

/-- A chain the `Mine` arm produces from empty storage satisfies the
mined-chain invariant. -/
theorem mineCmd_ok (blocks difficulty : Nat) (data : String) (ts dur : Nat → Nat) (fuel : Nat)
    (out : List Block) (h : mineCmd blocks difficulty data ts dur fuel [] = some out) :
    minedChainOk difficulty data out := by
  unfold mineCmd at h
  cases hg : mine_block 0 "Genesis Block" "0" difficulty (ts 0) (dur 0) fuel with
  | none => simp [hg] at h
  | some g =>
    simp only [hg, List.isEmpty_nil, if_true, List.getLast?_singleton] at h
    obtain ⟨q1, q2, q3, q4, -, q6, q7, q9⟩ := mine_block_eq_some hg
    rw [q1] at h
    have hok : minedChainOk difficulty data [g] := by
      refine ⟨by simp, ?_⟩
      intro i hi
      have hi0 : i = 0 := by
        simp only [List.length_singleton] at hi
        omega
      subst hi0
      refine ⟨q1, ?_, q7, ?_, ?_, ?_⟩
      · show g.hash = calculate_hash 0 g.timestamp g.data g.nonce g.previous_hash
        rw [q2, q3, q4]
        exact q6
      · intro m hm
        show zeroPrefixed difficulty
          (calculate_hash 0 g.timestamp g.data m g.previous_hash) = false
        rw [q2, q3, q4]
        exact q9 m hm
      · intro h0
        exact ⟨q3, q4⟩
      · intro hge
        omega
    exact extendLoop_ok difficulty data ts dur fuel blocks [g] out h hok

/-! ## C1, C5, C10: the controller's `Mine` arm -/

/-- C1 amended: the difficulty used to mine every block of a `Mine` run is
the base difficulty supplied by the caller, at every index — the block's
hash satisfies the base-difficulty predicate and its nonce is minimal for
that same predicate; no escalation by `floor(index / 2)` occurs. -/
theorem C1_difficulty_is_base (blocks difficulty : Nat) (data : String) (ts dur : Nat → Nat)
    (fuel : Nat) (chain : List Block) (i : Nat)
    (hrun : mineCmd blocks difficulty data ts dur fuel [] = some chain)
    (hi : i < chain.length) :
    zeroPrefixed difficulty (blkAt chain i).hash = true ∧
    ∀ m, m < (blkAt chain i).nonce →
      zeroPrefixed difficulty
        (calculate_hash i (blkAt chain i).timestamp (blkAt chain i).data m
          (blkAt chain i).previous_hash) = false := by
  obtain ⟨-, hblk⟩ := mineCmd_ok blocks difficulty data ts dur fuel chain hrun
  obtain ⟨-, -, h3, h4, -, -⟩ := hblk i hi
  exact ⟨h3, h4⟩

set_option maxRecDepth 400000 in
/-- Witness for C1's amended claim on a concrete run. -/
theorem C1_difficulty_is_base_witness :
    mineCmd 2 0 "MChain data" tsZero tsZero 1 [] = some demoRun ∧ 1 < demoRun.length ∧
    (zeroPrefixed 0 (blkAt demoRun 1).hash = true ∧
     ∀ m, m < (blkAt demoRun 1).nonce →
       zeroPrefixed 0
         (calculate_hash 1 (blkAt demoRun 1).timestamp (blkAt demoRun 1).data m
           (blkAt demoRun 1).previous_hash) = false) :=
  ⟨by decide, by decide,
    C1_difficulty_is_base 2 0 "MChain data" tsZero tsZero 1 demoRun 1 (by decide) (by decide)⟩

set_option maxRecDepth 400000 in
/-- Counterexample to C1 as stated: in a concrete run with base difficulty 0,
the claim gives the block at index 2 the effective difficulty
`0 + floor(2 / 2) = 1`, so its hash would have to start with one zero
character — but the mined block's hash does not. -/
theorem C1_escalation_counterexample :
    mineCmd 3 0 "MChain data" tsZero tsZero 1 [] = some demoRun3 ∧
    zeroPrefixed (0 + 2 / 2) (blkAt demoRun3 2).hash = false :=
  ⟨by decide, by decide⟩

/-- C5: every chain the `Mine` arm produces from empty storage carries
contiguous indices from 0 and intact linkage — each non-genesis block's
previous hash is its predecessor's hash. -/
theorem C5_chain_linkage (blocks difficulty : Nat) (data : String) (ts dur : Nat → Nat)
    (fuel : Nat) (chain : List Block) (i : Nat)
    (hrun : mineCmd blocks difficulty data ts dur fuel [] = some chain)
    (hi : i < chain.length) :
    (blkAt chain i).index = i ∧
    (1 ≤ i → (blkAt chain i).previous_hash = (blkAt chain (i - 1)).hash) := by
  obtain ⟨-, hblk⟩ := mineCmd_ok blocks difficulty data ts dur fuel chain hrun
  obtain ⟨h1, -, -, -, -, h6⟩ := hblk i hi
  exact ⟨h1, fun hge => (h6 hge).2⟩

set_option maxRecDepth 400000 in
/-- Witness for C5 on a concrete run. -/
theorem C5_chain_linkage_witness :
    mineCmd 2 0 "MChain data" tsZero tsZero 1 [] = some demoRun ∧ 2 < demoRun.length ∧
    ((blkAt demoRun 2).index = 2 ∧
     (1 ≤ 2 → (blkAt demoRun 2).previous_hash = (blkAt demoRun 1).hash)) :=
  ⟨by decide, by decide,
    C5_chain_linkage 2 0 "MChain data" tsZero tsZero 1 demoRun 2 (by decide) (by decide)⟩

/-- C10: the genesis block's data is the fixed literal regardless of the
caller's payload, and every later block stores the payload with a space, a
hash mark and its index appended — never the caller's text verbatim. -/
theorem C10_block_data_shape (blocks difficulty : Nat) (data : String) (ts dur : Nat → Nat)
    (fuel : Nat) (chain : List Block) (i : Nat)
    (hrun : mineCmd blocks difficulty data ts dur fuel [] = some chain)
    (hi : i < chain.length) :
    (blkAt chain 0).data = "Genesis Block" ∧
    (1 ≤ i →
      (blkAt chain i).data = data ++ " #" ++ toString i ∧ (blkAt chain i).data ≠ data) := by
  obtain ⟨hne, hblk⟩ := mineCmd_ok blocks difficulty data ts dur fuel chain hrun
  have h0 := ((hblk 0 (List.length_pos.mpr hne)).2.2.2.2.1 rfl).1
  refine ⟨h0, fun hge => ?_⟩
  have hd := ((hblk i hi).2.2.2.2.2 hge).1
  refine ⟨hd, ?_⟩
  rw [hd]
  intro hEq
  have hcontra := congrArg String.length hEq
  have hlen2 : (" #" : String).length = 2 := rfl
  rw [String.length_append, String.length_append, hlen2] at hcontra
  omega

set_option maxRecDepth 400000 in
/-- Witness for C10 on a concrete run. -/
theorem C10_block_data_shape_witness :
    mineCmd 2 0 "MChain data" tsZero tsZero 1 [] = some demoRun ∧ 1 < demoRun.length ∧
    ((blkAt demoRun 0).data = "Genesis Block" ∧
     (1 ≤ 1 →
       (blkAt demoRun 1).data = "MChain data" ++ " #" ++ toString 1 ∧
       (blkAt demoRun 1).data ≠ "MChain data")) :=
  ⟨by decide, by decide,
    C10_block_data_shape 2 0 "MChain data" tsZero tsZero 1 demoRun 1 (by decide) (by decide)⟩

end MChain
